import Mathlib

set_option maxRecDepth 40000

/-!
Verification of the Shamir secret-sharing engine in
`packages/crypto/src/payload.ts` (splitSecret / combineShares / verifyShares /
createThresholdEncryption / decryptWithThreshold and their helpers).

The TypeScript functions are shallowly embedded below: `bigint` values are
modelled by `ℕ` (they are non-negative at every call site embedded here, except
the extended-Euclid coefficients, which are modelled by `ℤ`), `Uint8Array`s by
`List ℕ` of byte values, thrown exceptions by `Except String`, and the CSPRNG
by an explicit stream of byte arrays passed as a parameter.

The first part of the file proves that the 256-bit modulus used by the code is
prime, via a Lucas (Pratt-style) primality certificate; this underlies the
correctness of modular inversion and of Lagrange interpolation.
-/

/-- The 256-bit prime modulus declared at the top of the Shamir section of
`payload.ts`. -/
def PRIME : ℕ :=
  0xFFFFFFFFFFFFFFFFFFFFFFFFFFFFFFFFFFFFFFFFFFFFFFFFFFFFFFFEFFFFFC2F

/-- Square-and-multiply modular exponentiation with explicit fuel (enough for
any exponent below `2 ^ fuel`).  Used only to check the primality certificate
by kernel evaluation; it is not part of the embedded program. -/
def powModAux (m : ℕ) : ℕ → ℕ → ℕ → ℕ
  | 0, _, _ => 1 % m
  | fuel + 1, a, k =>
    if k = 0 then 1 % m
    else
      let r := powModAux m fuel (a * a % m) (k / 2)
      if k % 2 = 1 then r * a % m else r

/-- Modular exponentiation with enough fuel for 300-bit exponents. -/
def powMod (m a k : ℕ) : ℕ := powModAux m 300 a k

lemma powModAux_correct (m : ℕ) :
    ∀ fuel a k, k < 2 ^ fuel → powModAux m fuel a k = a ^ k % m := by
  intro fuel
  induction fuel with
  | zero =>
    intro a k hk
    have hk0 : k = 0 := by simpa using hk
    subst hk0
    simp [powModAux]
  | succ fuel ih =>
    intro a k hk
    by_cases hk0 : k = 0
    · subst hk0; simp [powModAux]
    · have hk2 : k / 2 < 2 ^ fuel := by
        rw [Nat.div_lt_iff_lt_mul (by norm_num)]
        calc k < 2 ^ (fuel + 1) := hk
          _ = 2 ^ fuel * 2 := by ring
      have hrec : powModAux m fuel (a * a % m) (k / 2) = (a * a) ^ (k / 2) % m := by
        rw [ih _ _ hk2, ← Nat.pow_mod]
      have hpow : (a * a) ^ (k / 2) = a ^ (2 * (k / 2)) := by
        rw [mul_pow, two_mul, pow_add]
      rw [powModAux]
      simp only [if_neg hk0, hrec]
      by_cases hodd : k % 2 = 1
      · have hk' : 2 * (k / 2) + 1 = k := by omega
        simp only [if_pos hodd, hpow]
        conv_rhs => rw [← hk', pow_succ]
        conv_rhs => rw [Nat.mul_mod]
        conv_lhs => rw [Nat.mul_mod, Nat.mod_mod_of_dvd _ (dvd_refl m)]
      · have hk' : 2 * (k / 2) = k := by omega
        simp only [if_neg hodd, hpow, hk']

lemma powModAux_lt (m : ℕ) (hm : 0 < m) :
    ∀ fuel a k, powModAux m fuel a k < m := by
  intro fuel
  induction fuel with
  | zero => intro a k; exact Nat.mod_lt _ hm
  | succ fuel ih =>
    intro a k
    rw [powModAux]
    by_cases hk0 : k = 0
    · simp only [if_pos hk0]; exact Nat.mod_lt _ hm
    · simp only [if_neg hk0]
      by_cases hodd : k % 2 = 1
      · simp only [if_pos hodd]; exact Nat.mod_lt _ hm
      · simp only [if_neg hodd]; exact ih _ _

lemma zmod_pow_eq_powMod (n a k : ℕ) (hk : k < 2 ^ 300) :
    (a : ZMod n) ^ k = ((powMod n a k : ℕ) : ZMod n) := by
  rw [powMod, powModAux_correct n 300 a k hk, ZMod.natCast_mod, Nat.cast_pow]

lemma zmod_natCast_ne_one {n r : ℕ} (hn : 1 < n) (hr : r < n) (h1 : r ≠ 1) :
    ((r : ℕ) : ZMod n) ≠ 1 := by
  haveI : Fact (1 < n) := ⟨hn⟩
  intro h
  have hv := congrArg ZMod.val h
  rw [ZMod.val_cast_of_lt hr, ZMod.val_one] at hv
  exact h1 hv

/-- Discharges one branch of a Lucas certificate: the candidate witness does
not have order dividing `e` modulo `n`, checked by evaluating `powMod`. -/
lemma pratt_leaf (n a e : ℕ) (hn : 1 < n) (he : e < 2 ^ 300)
    (hne : powMod n a e ≠ 1) : (a : ZMod n) ^ e ≠ 1 := by
  rw [zmod_pow_eq_powMod n a e he]
  exact zmod_natCast_ne_one hn (powModAux_lt n (by omega) 300 a e) hne

/-- A prime dividing a product of primes equals one of them. -/
lemma prime_mem_of_dvd_listProd {q : ℕ} (hq : q.Prime) :
    ∀ L : List ℕ, (∀ x ∈ L, x.Prime) → q ∣ L.prod → q ∈ L := by
  intro L
  induction L with
  | nil =>
    intro _ hdvd
    simp only [List.prod_nil, Nat.dvd_one] at hdvd
    exact absurd hdvd hq.ne_one
  | cons x L ih =>
    intro hL hdvd
    rw [List.prod_cons] at hdvd
    rcases (Nat.Prime.dvd_mul hq).mp hdvd with h | h
    · have := (Nat.prime_dvd_prime_iff_eq hq (hL x (by simp))).mp h
      simp [this]
    · exact List.mem_cons_of_mem _ (ih (fun y hy => hL y (List.mem_cons_of_mem _ hy)) h)

lemma prime_1206781 : Nat.Prime 1206781 := by
  have hfac : (1206781 - 1 : ℕ) = ([2, 2, 3, 5, 20113] : List ℕ).prod := by decide
  apply lucas_primality _ ((10 : ℕ) : ZMod 1206781)
  · rw [zmod_pow_eq_powMod _ _ _ (by norm_num)]
    have h : powMod 1206781 10 (1206781 - 1) = 1 := by decide
    rw [h]; exact Nat.cast_one
  · intro q hq hdvd
    have hmem : q ∈ ([2, 2, 3, 5, 20113] : List ℕ) :=
      prime_mem_of_dvd_listProd hq _ (by intro x hx; fin_cases hx <;> norm_num)
        (hfac ▸ hdvd)
    fin_cases hmem <;>
      exact pratt_leaf _ _ _ (by norm_num) (by norm_num) (by decide)

lemma prime_7240687 : Nat.Prime 7240687 := by
  have hfac : (7240687 - 1 : ℕ) = ([2, 3, 1206781] : List ℕ).prod := by decide
  apply lucas_primality _ ((3 : ℕ) : ZMod 7240687)
  · rw [zmod_pow_eq_powMod _ _ _ (by norm_num)]
    have h : powMod 7240687 3 (7240687 - 1) = 1 := by decide
    rw [h]; exact Nat.cast_one
  · intro q hq hdvd
    have hmem : q ∈ ([2, 3, 1206781] : List ℕ) :=
      prime_mem_of_dvd_listProd hq _
        (by intro x hx
            fin_cases hx <;> first | exact prime_1206781 | norm_num)
        (hfac ▸ hdvd)
    fin_cases hmem <;>
      exact pratt_leaf _ _ _ (by norm_num) (by norm_num) (by decide)

lemma prime_13331831 : Nat.Prime 13331831 := by
  have hfac : (13331831 - 1 : ℕ) = ([2, 5, 971, 1373] : List ℕ).prod := by decide
  apply lucas_primality _ ((13 : ℕ) : ZMod 13331831)
  · rw [zmod_pow_eq_powMod _ _ _ (by norm_num)]
    have h : powMod 13331831 13 (13331831 - 1) = 1 := by decide
    rw [h]; exact Nat.cast_one
  · intro q hq hdvd
    have hmem : q ∈ ([2, 5, 971, 1373] : List ℕ) :=
      prime_mem_of_dvd_listProd hq _ (by intro x hx; fin_cases hx <;> norm_num)
        (hfac ▸ hdvd)
    fin_cases hmem <;>
      exact pratt_leaf _ _ _ (by norm_num) (by norm_num) (by decide)

lemma prime_107590001 : Nat.Prime 107590001 := by
  have hfac : (107590001 - 1 : ℕ)
      = ([2, 2, 2, 2, 5, 5, 5, 5, 7, 29, 53] : List ℕ).prod := by decide
  apply lucas_primality _ ((3 : ℕ) : ZMod 107590001)
  · rw [zmod_pow_eq_powMod _ _ _ (by norm_num)]
    have h : powMod 107590001 3 (107590001 - 1) = 1 := by decide
    rw [h]; exact Nat.cast_one
  · intro q hq hdvd
    have hmem : q ∈ ([2, 2, 2, 2, 5, 5, 5, 5, 7, 29, 53] : List ℕ) :=
      prime_mem_of_dvd_listProd hq _ (by intro x hx; fin_cases hx <;> norm_num)
        (hfac ▸ hdvd)
    fin_cases hmem <;>
      exact pratt_leaf _ _ _ (by norm_num) (by norm_num) (by decide)

lemma prime_173378833005251801 : Nat.Prime 173378833005251801 := by
  have hfac : (173378833005251801 - 1 : ℕ) =
      ([2, 2, 2, 5, 5, 2621, 24809, 13331831] : List ℕ).prod := by decide
  apply lucas_primality _ ((6 : ℕ) : ZMod 173378833005251801)
  · rw [zmod_pow_eq_powMod _ _ _ (by norm_num)]
    have h : powMod 173378833005251801 6 (173378833005251801 - 1) = 1 := by decide
    rw [h]; exact Nat.cast_one
  · intro q hq hdvd
    have hmem : q ∈ ([2, 2, 2, 5, 5, 2621, 24809, 13331831] : List ℕ) :=
      prime_mem_of_dvd_listProd hq _
        (by intro x hx
            fin_cases hx <;> first | exact prime_13331831 | norm_num)
        (hfac ▸ hdvd)
    fin_cases hmem <;>
      exact pratt_leaf _ _ _ (by norm_num) (by norm_num) (by decide)

lemma prime_22149492674086928081353 : Nat.Prime 22149492674086928081353 := by
  have hfac : (22149492674086928081353 - 1 : ℕ) =
      ([2, 2, 2, 3, 5323, 173378833005251801] : List ℕ).prod := by decide
  apply lucas_primality _ ((5 : ℕ) : ZMod 22149492674086928081353)
  · rw [zmod_pow_eq_powMod _ _ _ (by norm_num)]
    have h : powMod 22149492674086928081353 5 (22149492674086928081353 - 1) = 1 := by decide
    rw [h]; exact Nat.cast_one
  · intro q hq hdvd
    have hmem : q ∈ ([2, 2, 2, 3, 5323, 173378833005251801] : List ℕ) :=
      prime_mem_of_dvd_listProd hq _
        (by intro x hx
            fin_cases hx <;> first | exact prime_173378833005251801 | norm_num)
        (hfac ▸ hdvd)
    fin_cases hmem <;>
      exact pratt_leaf _ _ _ (by norm_num) (by norm_num) (by decide)

lemma prime_132896956044521568488119 : Nat.Prime 132896956044521568488119 := by
  have hfac : (132896956044521568488119 - 1 : ℕ) =
      ([2, 3, 22149492674086928081353] : List ℕ).prod := by decide
  apply lucas_primality _ ((6 : ℕ) : ZMod 132896956044521568488119)
  · rw [zmod_pow_eq_powMod _ _ _ (by norm_num)]
    have h : powMod 132896956044521568488119 6 (132896956044521568488119 - 1) = 1 := by decide
    rw [h]; exact Nat.cast_one
  · intro q hq hdvd
    have hmem : q ∈ ([2, 3, 22149492674086928081353] : List ℕ) :=
      prime_mem_of_dvd_listProd hq _
        (by intro x hx
            fin_cases hx <;> first | exact prime_22149492674086928081353 | norm_num)
        (hfac ▸ hdvd)
    fin_cases hmem <;>
      exact pratt_leaf _ _ _ (by norm_num) (by norm_num) (by decide)

lemma prime_255515944373312847190720520512484175977 :
    Nat.Prime 255515944373312847190720520512484175977 := by
  have hfac : (255515944373312847190720520512484175977 - 1 : ℕ) =
      ([2, 2, 2, 7, 7, 11, 1627, 2657, 4423, 41201, 96557, 7240687, 107590001] :
        List ℕ).prod := by decide
  apply lucas_primality _ ((3 : ℕ) : ZMod 255515944373312847190720520512484175977)
  · rw [zmod_pow_eq_powMod _ _ _ (by norm_num)]
    have h : powMod 255515944373312847190720520512484175977 3
        (255515944373312847190720520512484175977 - 1) = 1 := by decide
    rw [h]; exact Nat.cast_one
  · intro q hq hdvd
    have hmem : q ∈ ([2, 2, 2, 7, 7, 11, 1627, 2657, 4423, 41201, 96557, 7240687,
        107590001] : List ℕ) :=
      prime_mem_of_dvd_listProd hq _
        (by intro x hx
            fin_cases hx <;>
              first
                | exact prime_7240687
                | exact prime_107590001
                | norm_num)
        (hfac ▸ hdvd)
    fin_cases hmem <;>
      exact pratt_leaf _ _ _ (by norm_num) (by norm_num) (by decide)

lemma prime_F256 :
    Nat.Prime 205115282021455665897114700593932402728804164701536103180137503955397371 := by
  have hfac :
      (205115282021455665897114700593932402728804164701536103180137503955397371 - 1 : ℕ) =
      ([2, 3, 5, 29, 29, 31, 7723, 132896956044521568488119,
        255515944373312847190720520512484175977] : List ℕ).prod := by decide
  apply lucas_primality _ ((10 : ℕ) :
    ZMod 205115282021455665897114700593932402728804164701536103180137503955397371)
  · rw [zmod_pow_eq_powMod _ _ _ (by norm_num)]
    have h : powMod 205115282021455665897114700593932402728804164701536103180137503955397371 10
        (205115282021455665897114700593932402728804164701536103180137503955397371 - 1) = 1 := by
      decide
    rw [h]; exact Nat.cast_one
  · intro q hq hdvd
    have hmem : q ∈ ([2, 3, 5, 29, 29, 31, 7723, 132896956044521568488119,
        255515944373312847190720520512484175977] : List ℕ) :=
      prime_mem_of_dvd_listProd hq _
        (by intro x hx
            fin_cases hx <;>
              first
                | exact prime_132896956044521568488119
                | exact prime_255515944373312847190720520512484175977
                | norm_num)
        (hfac ▸ hdvd)
    fin_cases hmem <;>
      exact pratt_leaf _ _ _ (by norm_num) (by norm_num) (by decide)

/-- The modulus of the Shamir engine is prime. -/
theorem PRIME_prime : Nat.Prime PRIME := by
  have hP : PRIME =
      115792089237316195423570985008687907853269984665640564039457584007908834671663 := by
    norm_num [PRIME]
  rw [hP]
  have hfac :
      (115792089237316195423570985008687907853269984665640564039457584007908834671663 - 1 :
        ℕ) =
      ([2, 3, 7, 13441,
        205115282021455665897114700593932402728804164701536103180137503955397371] :
        List ℕ).prod := by decide
  apply lucas_primality _ ((3 : ℕ) :
    ZMod 115792089237316195423570985008687907853269984665640564039457584007908834671663)
  · rw [zmod_pow_eq_powMod _ _ _ (by norm_num)]
    have h : powMod
        115792089237316195423570985008687907853269984665640564039457584007908834671663 3
        (115792089237316195423570985008687907853269984665640564039457584007908834671663 - 1) =
        1 := by decide
    rw [h]; exact Nat.cast_one
  · intro q hq hdvd
    have hmem : q ∈ ([2, 3, 7, 13441,
        205115282021455665897114700593932402728804164701536103180137503955397371] :
        List ℕ) :=
      prime_mem_of_dvd_listProd hq _
        (by intro x hx
            fin_cases hx <;> first | exact prime_F256 | norm_num)
        (hfac ▸ hdvd)
    fin_cases hmem <;>
      exact pratt_leaf _ _ _ (by norm_num) (by norm_num) (by decide)

instance PRIME_fact_prime : Fact (Nat.Prime PRIME) := ⟨PRIME_prime⟩

/-! ## Shallow embedding of the Shamir engine from `payload.ts`

`bigint` values are non-negative everywhere they occur in this code except for
the Bezout coefficients of the extended Euclidean algorithm, so they are
modelled by `ℕ` (and by `ℤ` inside `modInverse`).  `Uint8Array`s are modelled
as `List ℕ`; a thrown `Error` is an `Except.error` carrying the message. -/

/-- A secret share: `index` plus a 32-byte `value` (interface `SecretShare`). -/
structure SecretShare where
  index : ℕ
  value : List ℕ
  deriving DecidableEq, Repr

instance {ε α : Type} [DecidableEq ε] [DecidableEq α] :
    DecidableEq (Except ε α) := fun a b =>
  match a, b with
  | .error e₁, .error e₂ =>
    if h : e₁ = e₂ then .isTrue (by simp [h]) else .isFalse (by simp [h])
  | .error _, .ok _ => .isFalse (by simp)
  | .ok _, .error _ => .isFalse (by simp)
  | .ok a₁, .ok a₂ =>
    if h : a₁ = a₂ then .isTrue (by simp [h]) else .isFalse (by simp [h])

/-- `bytesToBigInt` from `payload.ts`: big-endian interpretation of a byte
array (`result = (result << 8) + byte` per byte, no modular reduction). -/
def bytesToBigInt (bytes : List ℕ) : ℕ :=
  bytes.foldl (fun result byte => result * 256 + byte) 0

/-- `bigIntToBytes` from `payload.ts`: the low 256 bits of a value, as 32
big-endian bytes (`bytes[i] = (value >> (8*(31-i))) & 0xff`). -/
def bigIntToBytes (value : ℕ) : List ℕ :=
  (List.range 32).map (fun i => value / 256 ^ (31 - i) % 256)

/-- `generateCoefficients` from `payload.ts`: the constant term is the secret
(not reduced mod `PRIME`); each further coefficient is a fresh 32-byte random
draw interpreted as a big integer and reduced mod `PRIME`.  The CSPRNG is
modelled by the explicit stream `rand` of byte arrays. -/
def generateCoefficients (rand : ℕ → List ℕ) (secret : ℕ) (degree : ℕ) : List ℕ :=
  secret :: (List.range degree).map (fun i => bytesToBigInt (rand (i + 1)) % PRIME)

/-- Loop body of `evaluatePolynomial`: accumulates
`result = (result + coef * xPower) % PRIME` and `xPower = xPower * x % PRIME`
over the coefficient list. -/
def evalPolyAux (x : ℕ) : List ℕ → ℕ → ℕ → ℕ
  | [], result, _ => result
  | coef :: coefficients, result, xPower =>
    evalPolyAux x coefficients ((result + coef * xPower) % PRIME) (xPower * x % PRIME)

/-- `evaluatePolynomial` from `payload.ts`. -/
def evaluatePolynomial (coefficients : List ℕ) (x : ℕ) : ℕ :=
  evalPolyAux x coefficients 0 1

/-- The `while (r !== 0)` loop of `modInverse`, with fuel.  On entry `r`
strictly exceeds every later value of `r`, so `r + 1` units of fuel always
suffice; the quotient `old_r / r` matches the TypeScript `bigint` division
because both arguments are non-negative at every call site. -/
def egcdLoop : ℕ → ℕ → ℕ → ℤ → ℤ → ℤ
  | 0, _, _, old_s, _ => old_s
  | fuel + 1, old_r, r, old_s, s =>
    if r = 0 then old_s
    else egcdLoop fuel r (old_r % r) s (old_s - (old_r / r : ℕ) * s)

/-- `modInverse` from `payload.ts`: extended Euclidean algorithm, returning
`((old_s % m) + m) % m`.  For the TypeScript remainder (sign of the dividend)
and for Lean's `Int.emod` the composite expression yields the same value,
namely the mathematical residue of `old_s` in `[0, m)`. -/
def modInverse (a m : ℕ) : ℕ :=
  (((egcdLoop (m + 1) a m 1 0) % (m : ℤ) + (m : ℤ)) % (m : ℤ)).toNat

/-- The two inner accumulations of `lagrangeInterpolate` for a fixed `i`:
`numerator = Π (PRIME - x_j) % PRIME` and
`denominator = Π ((x_i - x_j + PRIME) % PRIME) % PRIME` over `j ≠ i`.
(The TypeScript subtractions stay non-negative because every share index is a
JavaScript number, hence far below `PRIME`; the `ℕ`-side expressions below are
arranged to agree with them whenever `x_j ≤ PRIME`.) -/
def lagrangeNumDen (points : List (ℕ × ℕ)) (i : ℕ) : ℕ × ℕ :=
  (List.range points.length).foldl
    (fun nd j =>
      if i ≠ j then
        (nd.1 * ((PRIME - (points.getD j (0, 0)).1) % PRIME) % PRIME,
         nd.2 * (((points.getD i (0, 0)).1 + PRIME - (points.getD j (0, 0)).1) % PRIME)
           % PRIME)
      else nd)
    (1, 1)

/-- `lagrangeInterpolate` from `payload.ts`: Lagrange interpolation at `x = 0`
of the given `(x, y)` points, all arithmetic mod `PRIME`. -/
def lagrangeInterpolate (points : List (ℕ × ℕ)) : ℕ :=
  (List.range points.length).foldl
    (fun secret i =>
      let nd := lagrangeNumDen points i
      let lagrangeCoef := nd.1 * modInverse nd.2 PRIME % PRIME
      (secret + (points.getD i (0, 0)).2 * lagrangeCoef) % PRIME)
    0

/-- `splitSecret` from `payload.ts`. -/
def splitSecret (rand : ℕ → List ℕ) (secret : List ℕ)
    (threshold totalShares : ℕ) : Except String (List SecretShare) :=
  if secret.length ≠ 32 then .error "Secret must be 32 bytes"
  else if threshold < 2 then .error "Threshold must be at least 2"
  else if totalShares < threshold then .error "Total shares must be >= threshold"
  else if 255 < totalShares then .error "Maximum 255 shares supported"
  else
    let secretBigInt := bytesToBigInt secret
    let coefficients := generateCoefficients rand secretBigInt (threshold - 1)
    .ok ((List.range totalShares).map (fun i =>
      { index := i + 1
        value := bigIntToBytes (evaluatePolynomial coefficients (i + 1)) }))

/-- `combineShares` from `payload.ts`. -/
def combineShares (shares : List SecretShare) : Except String (List ℕ) :=
  if shares.length < 2 then .error "At least 2 shares required"
  else
    let points := shares.map (fun share => (share.index, bytesToBigInt share.value))
    .ok (bigIntToBytes (lagrangeInterpolate points))

/-- `verifyShares` from `payload.ts`.  The `try/catch` is modelled by matching
on the `Except` results of `combineShares`; the byte-by-byte
`result1.every((byte, i) => byte === result2[i])` is modelled with an
out-of-range sentinel `256`, which can never equal a stored byte. -/
def verifyShares (shares : List SecretShare) (expectedThreshold : ℕ) : Bool :=
  if shares.length < expectedThreshold then false
  else
    match combineShares (shares.take expectedThreshold) with
    | .error _ => false
    | .ok result1 =>
      if expectedThreshold < shares.length then
        match combineShares ((shares.drop 1).take expectedThreshold) with
        | .error _ => false
        | .ok result2 =>
          (List.range result1.length).all
            (fun i => result1.getD i 0 == result2.getD i 256)
      else true

/-- `createThresholdEncryption` from `payload.ts`.  The fresh random 32-byte
key is modelled as the explicit parameter `encryptionKey`; `rand` models the
further CSPRNG draws consumed by `splitSecret`. -/
def createThresholdEncryption (encryptionKey : List ℕ) (rand : ℕ → List ℕ)
    (secret : List ℕ) (threshold totalShares : ℕ) :
    Except String (List ℕ × List SecretShare) :=
  let encryptedSecret := (List.range secret.length).map
    (fun i => Nat.xor (secret.getD i 0) (encryptionKey.getD (i % 32) 0))
  match splitSecret rand encryptionKey threshold totalShares with
  | .error e => .error e
  | .ok keyShares => .ok (encryptedSecret, keyShares)

/-- `decryptWithThreshold` from `payload.ts`. -/
def decryptWithThreshold (encryptedSecret : List ℕ)
    (keyShares : List SecretShare) : Except String (List ℕ) :=
  match combineShares keyShares with
  | .error e => .error e
  | .ok encryptionKey =>
    .ok ((List.range encryptedSecret.length).map
      (fun i => Nat.xor (encryptedSecret.getD i 0) (encryptionKey.getD (i % 32) 0)))


/-! ## Byte-conversion lemmas -/

lemma bigIntToBytes_length (value : ℕ) : (bigIntToBytes value).length = 32 := by
  simp [bigIntToBytes]

lemma bigIntToBytes_bytes_lt (value : ℕ) : ∀ b ∈ bigIntToBytes value, b < 256 := by
  intro b hb
  simp only [bigIntToBytes, List.mem_map, List.mem_range] at hb
  obtain ⟨i, _, rfl⟩ := hb
  exact Nat.mod_lt _ (by norm_num)

lemma bytesToBigInt_foldl_shift (l : List ℕ) : ∀ a : ℕ,
    l.foldl (fun result byte => result * 256 + byte) a
      = a * 256 ^ l.length + l.foldl (fun result byte => result * 256 + byte) 0 := by
  induction l with
  | nil => intro a; simp
  | cons b l ih =>
    intro a
    simp only [List.foldl_cons, List.length_cons]
    have hb : (0 : ℕ) * 256 + b = b := by ring
    rw [ih (a * 256 + b), hb, ih b]
    ring

lemma bytesToBigInt_cons (b : ℕ) (l : List ℕ) :
    bytesToBigInt (b :: l) = b * 256 ^ l.length + bytesToBigInt l := by
  simp only [bytesToBigInt, List.foldl_cons, Nat.zero_mul, Nat.zero_add]
  exact bytesToBigInt_foldl_shift l b

lemma bytesToBigInt_lt : ∀ l : List ℕ, (∀ b ∈ l, b < 256) →
    bytesToBigInt l < 256 ^ l.length := by
  intro l
  induction l with
  | nil => intro _; simp [bytesToBigInt]
  | cons b l ih =>
    intro hl
    rw [bytesToBigInt_cons, List.length_cons, pow_succ]
    have hb : b < 256 := hl b (by simp)
    have hrest : bytesToBigInt l < 256 ^ l.length := ih (fun x hx => hl x (by simp [hx]))
    calc b * 256 ^ l.length + bytesToBigInt l
        < b * 256 ^ l.length + 256 ^ l.length := by omega
      _ = (b + 1) * 256 ^ l.length := by ring
      _ ≤ 256 * 256 ^ l.length := by
          exact Nat.mul_le_mul_right _ (by omega)
      _ = 256 ^ l.length * 256 := by ring

/-- Splitting the top base-256 digit off a remainder. -/
lemma mod_pow_split (v n : ℕ) :
    v % 256 ^ (n + 1) = 256 ^ n * (v / 256 ^ n % 256) + v % 256 ^ n := by
  have h3 : v % 256 ^ (n + 1) / 256 ^ n = v / 256 ^ n % 256 := by
    rw [pow_succ]
    exact Nat.mod_mul_right_div_self v (256 ^ n) 256
  have h2 : v % 256 ^ (n + 1) % 256 ^ n = v % 256 ^ n :=
    Nat.mod_mod_of_dvd v ⟨256, by ring⟩
  have h1 := Nat.div_add_mod (v % 256 ^ (n + 1)) (256 ^ n)
  rw [h3, h2] at h1
  exact h1.symm

lemma bytesToBigInt_bigEndianDigits (v : ℕ) : ∀ n : ℕ,
    bytesToBigInt ((List.range n).map (fun i => v / 256 ^ (n - 1 - i) % 256))
      = v % 256 ^ n := by
  intro n
  induction n generalizing v with
  | zero => simp [bytesToBigInt, Nat.mod_one]
  | succ n ih =>
    rw [List.range_succ_eq_map]
    simp only [List.map_cons, List.map_map]
    have hhead : v / 256 ^ (n + 1 - 1 - 0) % 256 = v / 256 ^ n % 256 := by
      norm_num
    have htail : (List.range n).map
          ((fun i => v / 256 ^ (n + 1 - 1 - i) % 256) ∘ Nat.succ)
        = (List.range n).map (fun i => v / 256 ^ (n - 1 - i) % 256) := by
      apply List.map_congr_left
      intro i hi
      simp only [Function.comp_apply]
      have h5 : n + 1 - 1 - Nat.succ i = n - 1 - i := by omega
      rw [h5]
    rw [hhead, htail, bytesToBigInt_cons, ih v, List.length_map, List.length_range,
      mod_pow_split v n]
    ring

lemma bytesToBigInt_bigIntToBytes (v : ℕ) (hv : v < 2 ^ 256) :
    bytesToBigInt (bigIntToBytes v) = v := by
  have h := bytesToBigInt_bigEndianDigits v 32
  have heq : (List.range 32).map (fun i => v / 256 ^ (32 - 1 - i) % 256)
      = bigIntToBytes v := by
    apply List.map_congr_left
    intro i hi
    norm_num
  rw [heq] at h
  rw [h, Nat.mod_eq_of_lt]
  calc v < 2 ^ 256 := hv
    _ = 256 ^ 32 := by norm_num

lemma bytesToBigInt_digit_extract : ∀ (l : List ℕ), (∀ b ∈ l, b < 256) →
    ∀ j, j < l.length →
      bytesToBigInt l / 256 ^ (l.length - 1 - j) % 256 = l.getD j 0 := by
  intro l
  induction l with
  | nil => intro _ j hj; simp at hj
  | cons b l ih =>
    intro hl j hj
    rw [bytesToBigInt_cons]
    have hrest : bytesToBigInt l < 256 ^ l.length :=
      bytesToBigInt_lt l (fun x hx => hl x (by simp [hx]))
    match j with
    | 0 =>
      simp only [List.length_cons, Nat.add_sub_cancel, Nat.sub_zero, List.getD_cons_zero]
      have h1 : b * 256 ^ l.length + bytesToBigInt l
          = bytesToBigInt l + b * 256 ^ l.length := by ring
      rw [h1, Nat.add_mul_div_right _ _ (Nat.pow_pos (by norm_num)),
        Nat.div_eq_of_lt hrest, Nat.zero_add, Nat.mod_eq_of_lt (hl b (by simp))]
    | j + 1 =>
      have hj' : j < l.length := by simpa using hj
      have hlen : (b :: l).length - 1 - (j + 1) = l.length - 1 - j := by
        simp only [List.length_cons]; omega
      rw [hlen, List.getD_cons_succ]
      have hsplit : b * 256 ^ l.length + bytesToBigInt l
          = 256 ^ (l.length - 1 - j) * (b * 256 ^ (j + 1)) + bytesToBigInt l := by
        rw [← Nat.mul_assoc, Nat.mul_comm (256 ^ (l.length - 1 - j)) b, Nat.mul_assoc,
          ← pow_add]
        congr 3
        omega
      rw [hsplit, Nat.mul_add_div (Nat.pow_pos (by norm_num))]
      have h2 : b * 256 ^ (j + 1) = 256 * (b * 256 ^ j) := by ring
      rw [h2, Nat.add_comm, Nat.add_mul_mod_self_left]
      exact ih (fun x hx => hl x (by simp [hx])) j hj'

/-- Round trip for well-formed 32-byte arrays. -/
lemma bigIntToBytes_bytesToBigInt (bytes : List ℕ) (hlen : bytes.length = 32)
    (hbytes : ∀ b ∈ bytes, b < 256) :
    bigIntToBytes (bytesToBigInt bytes) = bytes := by
  apply List.ext_getElem
  · rw [bigIntToBytes_length, hlen]
  · intro j h1 h2
    rw [bigIntToBytes_length] at h1
    have hd := bytesToBigInt_digit_extract bytes hbytes j (by omega)
    have hgd : bytes.getD j 0 = bytes[j] := List.getD_eq_getElem bytes 0 h2
    have hbd : (bigIntToBytes (bytesToBigInt bytes))[j]
        = bytesToBigInt bytes / 256 ^ (31 - j) % 256 := by
      simp [bigIntToBytes]
    rw [hbd, ← hgd, ← hd, hlen]

/-! ## Correctness of `modInverse` (extended Euclidean algorithm) -/

lemma egcdLoop_spec (a m : ℕ) :
    ∀ fuel (old_r r : ℕ) (old_s s : ℤ), r < fuel →
      old_s * (a : ℤ) ≡ (old_r : ℤ) [ZMOD (m : ℤ)] →
      s * (a : ℤ) ≡ (r : ℤ) [ZMOD (m : ℤ)] →
      Nat.gcd old_r r = Nat.gcd a m →
      egcdLoop fuel old_r r old_s s * (a : ℤ) ≡ ((Nat.gcd a m : ℕ) : ℤ) [ZMOD (m : ℤ)] := by
  intro fuel
  induction fuel with
  | zero => intro old_r r old_s s hr; omega
  | succ fuel ih =>
    intro old_r r old_s s hr h1 h2 hg
    rw [egcdLoop]
    by_cases hr0 : r = 0
    · subst hr0
      simp only [if_pos rfl]
      rw [← hg, Nat.gcd_zero_right]
      exact h1
    · simp only [if_neg hr0]
      apply ih
      · have := Nat.mod_lt old_r (show 0 < r by omega)
        omega
      · exact h2
      · have h3 : (old_s - ((old_r / r : ℕ) : ℤ) * s) * (a : ℤ)
            = old_s * a - ((old_r / r : ℕ) : ℤ) * (s * a) := by ring
        have hdm := Nat.div_add_mod old_r r
        have hle : r * (old_r / r) ≤ old_r := by omega
        have hnat : old_r % r = old_r - r * (old_r / r) := by omega
        have hq : ((old_r % r : ℕ) : ℤ) = (old_r : ℤ) - ((old_r / r : ℕ) : ℤ) * r := by
          rw [hnat]
          push_cast [hle]
          ring
        rw [h3, hq]
        exact h1.sub (h2.mul_left _)
      · rw [Nat.gcd_comm r (old_r % r), ← Nat.gcd_rec r old_r, Nat.gcd_comm r old_r, hg]

/-- `modInverse a m` lies in `[0, m)` and is a genuine modular inverse of `a`
whenever `a` and `m` are coprime. -/
lemma modInverse_spec (a m : ℕ) (hm : 1 < m) (hcop : Nat.gcd a m = 1) :
    modInverse a m < m ∧ a * modInverse a m % m = 1 := by
  have hmz : ((m : ℤ)) ≠ 0 := by exact_mod_cast (by omega : m ≠ 0)
  have hmpos : (0 : ℤ) < m := by exact_mod_cast (by omega : 0 < m)
  have hspec := egcdLoop_spec a m (m + 1) a m 1 0 (by omega)
    (by simp [Int.ModEq])
    (by simp [Int.ModEq, Int.emod_self]) rfl
  rw [hcop] at hspec
  set R := egcdLoop (m + 1) a m 1 0 with hR
  have ht : (R % (m : ℤ) + m) % m = R % m := by
    have h4 : R % (m : ℤ) + m = R % m + m * 1 := by ring
    rw [h4, Int.add_mul_emod_self_left, Int.emod_emod_of_dvd _ dvd_rfl]
  have hnn : 0 ≤ R % (m : ℤ) := Int.emod_nonneg R hmz
  have hlt : R % (m : ℤ) < m := Int.emod_lt_of_pos R hmpos
  have hmi : modInverse a m = (R % (m : ℤ)).toNat := by
    rw [modInverse, ← hR, ht]
  constructor
  · rw [hmi]
    omega
  · have hint : (a : ℤ) * (R % m) % m = 1 := by
      have h5 : (a : ℤ) * (R % m) % m = (a : ℤ) * R % m := by
        rw [Int.mul_emod, Int.emod_emod_of_dvd _ dvd_rfl, ← Int.mul_emod]
      rw [h5, Int.mul_comm]
      have h6 : R * (a : ℤ) % m = ((1 : ℕ) : ℤ) % m := hspec
      rw [h6]
      norm_num
      exact Int.emod_eq_of_lt (by norm_num) (by exact_mod_cast hm)
    have hcast : ((a * modInverse a m % m : ℕ) : ℤ) = 1 := by
      push_cast [hmi]
      rw [Int.toNat_of_nonneg hnn]
      exact hint
    exact_mod_cast hcast

/-! ## `ZMod PRIME` infrastructure -/

instance PRIME_pos_fact : Fact (1 < PRIME) := ⟨by norm_num [PRIME]⟩

instance PRIME_neZero : NeZero PRIME := ⟨by norm_num [PRIME]⟩

lemma PRIME_gt_one : 1 < PRIME := PRIME_pos_fact.out

/-- Casting `modInverse d PRIME` into the field recovers the field inverse,
for any `d` that is nonzero mod `PRIME`. -/
lemma modInverse_cast_eq_inv (d : ℕ) (hd : (d : ZMod PRIME) ≠ 0) :
    ((modInverse d PRIME : ℕ) : ZMod PRIME) = (d : ZMod PRIME)⁻¹ := by
  have hndvd : ¬ PRIME ∣ d := by
    intro hdvd
    exact hd ((ZMod.natCast_zmod_eq_zero_iff_dvd d PRIME).mpr hdvd)
  have hcop : Nat.gcd d PRIME = 1 :=
    Nat.Coprime.symm ((Nat.Prime.coprime_iff_not_dvd PRIME_prime).mpr hndvd)
  obtain ⟨-, hinv⟩ := modInverse_spec d PRIME PRIME_gt_one hcop
  have hcast : ((d * modInverse d PRIME % PRIME : ℕ) : ZMod PRIME)
      = ((1 : ℕ) : ZMod PRIME) := by rw [hinv]
  rw [ZMod.natCast_mod, Nat.cast_mul, Nat.cast_one] at hcast
  exact eq_inv_of_mul_eq_one_left (by rw [mul_comm] at hcast; exact hcast)

/-- One step of a mod-`PRIME` additive accumulation, seen in the field. -/
lemma val_add_nat (w : ZMod PRIME) (t : ℕ) :
    (w.val + t) % PRIME = (w + (t : ZMod PRIME)).val := by
  rw [ZMod.val_add, ZMod.val_natCast]
  conv_lhs => rw [Nat.add_mod]
  conv_rhs => rw [Nat.add_mod]
  rw [Nat.mod_mod_of_dvd t (dvd_refl PRIME)]

/-- One step of a mod-`PRIME` multiplicative accumulation, seen in the field. -/
lemma val_mul_nat (w : ZMod PRIME) (t : ℕ) :
    w.val * t % PRIME = (w * (t : ZMod PRIME)).val := by
  rw [ZMod.val_mul, ZMod.val_natCast]
  conv_lhs => rw [Nat.mul_mod]
  conv_rhs => rw [Nat.mul_mod]
  rw [Nat.mod_mod_of_dvd t (dvd_refl PRIME)]

/-- The additive loop of `lagrangeInterpolate`, expressed as a field sum. -/
lemma foldl_range_addmod (g : ℕ → ℕ) (z : ZMod PRIME) : ∀ n : ℕ,
    (List.range n).foldl (fun acc i => (acc + g i) % PRIME) z.val
      = (z + ∑ i ∈ Finset.range n, ((g i : ℕ) : ZMod PRIME)).val := by
  intro n
  induction n with
  | zero => simp
  | succ n ih =>
    rw [List.range_succ, List.foldl_append, ih, List.foldl_cons, List.foldl_nil,
      val_add_nat, Finset.sum_range_succ, add_assoc]

/-- The guarded multiplicative loops of `lagrangeNumDen`, expressed as field
products. -/
lemma foldl_range_mulmod_ite (g : ℕ → ℕ) (i : ℕ) (z : ZMod PRIME) : ∀ n : ℕ,
    (List.range n).foldl (fun acc j => if i ≠ j then acc * g j % PRIME else acc) z.val
      = (z * ∏ j ∈ Finset.range n,
          (if i ≠ j then ((g j : ℕ) : ZMod PRIME) else 1)).val := by
  intro n
  induction n with
  | zero => simp
  | succ n ih =>
    rw [List.range_succ, List.foldl_append, ih, List.foldl_cons, List.foldl_nil,
      Finset.prod_range_succ]
    by_cases hin : i ≠ n
    · rw [if_pos hin, if_pos hin, val_mul_nat, mul_assoc]
    · rw [if_neg hin, if_neg hin, mul_one]

/-- The simultaneous pair fold of `lagrangeNumDen` splits into two folds. -/
lemma foldl_pair_split (i : ℕ) (f1 f2 : ℕ → ℕ → ℕ) (l : List ℕ) : ∀ a b : ℕ,
    l.foldl (fun nd j => if i ≠ j then (f1 nd.1 j, f2 nd.2 j) else nd) (a, b)
      = (l.foldl (fun x j => if i ≠ j then f1 x j else x) a,
         l.foldl (fun x j => if i ≠ j then f2 x j else x) b) := by
  induction l with
  | nil => intro a b; rfl
  | cons x l ih =>
    intro a b
    simp only [List.foldl_cons]
    by_cases hix : i ≠ x
    · rw [if_pos hix, if_pos hix, if_pos hix, ih]
    · rw [if_neg hix, if_neg hix, if_neg hix, ih]

/-! ## The sharing polynomial over the field -/

/-- The polynomial over `ZMod PRIME` whose coefficient list (constant term
first) is the given list of naturals. -/
noncomputable def toPoly : List ℕ → Polynomial (ZMod PRIME)
  | [] => 0
  | c :: cs => Polynomial.C ((c : ℕ) : ZMod PRIME) + Polynomial.X * toPoly cs

lemma toPoly_degree_lt : ∀ c : List ℕ, (toPoly c).degree < (c.length : WithBot ℕ) := by
  intro c
  induction c with
  | nil =>
    simp only [toPoly, Polynomial.degree_zero, List.length_nil, Nat.cast_zero]
    exact WithBot.bot_lt_coe 0
  | cons c cs ih =>
    rw [toPoly]
    apply lt_of_le_of_lt (Polynomial.degree_add_le _ _)
    rw [max_lt_iff]
    constructor
    · apply lt_of_le_of_lt Polynomial.degree_C_le
      exact_mod_cast WithBot.coe_lt_coe.mpr (by simp : 0 < (c :: cs).length)
    · apply lt_of_le_of_lt (Polynomial.degree_mul_le _ _)
      rw [Polynomial.degree_X]
      have h1 : (1 : WithBot ℕ) + (toPoly cs).degree < 1 + cs.length :=
        WithBot.add_lt_add_left (by simp) ih
      apply lt_of_lt_of_le h1
      rw [List.length_cons]
      rw [show ((cs.length + 1 : ℕ) : WithBot ℕ) = (cs.length : WithBot ℕ) + 1 by
        push_cast; rfl]
      rw [add_comm]

lemma toPoly_eval_zero (c0 : ℕ) (cs : List ℕ) :
    Polynomial.eval 0 (toPoly (c0 :: cs)) = ((c0 : ℕ) : ZMod PRIME) := by
  simp [toPoly]

lemma evalPolyAux_eq (x : ℕ) : ∀ (c : List ℕ) (r w : ZMod PRIME),
    evalPolyAux x c r.val w.val
      = (r + w * Polynomial.eval ((x : ℕ) : ZMod PRIME) (toPoly c)).val := by
  intro c
  induction c with
  | nil => intro r w; simp [evalPolyAux, toPoly]
  | cons c cs ih =>
    intro r w
    rw [evalPolyAux]
    have h1 : (r.val + c * w.val) % PRIME = (r + ((c : ℕ) : ZMod PRIME) * w).val := by
      have h2 : (c : ℕ) * w.val % PRIME = (((c : ℕ) : ZMod PRIME) * w).val := by
        rw [mul_comm, val_mul_nat, mul_comm]
      calc (r.val + c * w.val) % PRIME
          = (r.val + c * w.val % PRIME) % PRIME := by
            conv_lhs => rw [Nat.add_mod]
            conv_rhs => rw [Nat.add_mod]
            rw [Nat.mod_mod_of_dvd _ (dvd_refl PRIME)]
        _ = (r.val + (((c : ℕ) : ZMod PRIME) * w).val) % PRIME := by rw [h2]
        _ = (r + ((((c : ℕ) : ZMod PRIME) * w).val : ℕ)).val := val_add_nat r _
        _ = (r + ((c : ℕ) : ZMod PRIME) * w).val := by
              rw [ZMod.natCast_zmod_val]
    have h3 : w.val * x % PRIME = (w * ((x : ℕ) : ZMod PRIME)).val := val_mul_nat w x
    rw [h1, h3, ih]
    congr 1
    rw [toPoly]
    simp only [Polynomial.eval_add, Polynomial.eval_mul, Polynomial.eval_C,
      Polynomial.eval_X]
    ring

lemma evaluatePolynomial_eq (c : List ℕ) (x : ℕ) :
    evaluatePolynomial c x
      = (Polynomial.eval ((x : ℕ) : ZMod PRIME) (toPoly c)).val := by
  rw [evaluatePolynomial]
  have h0 : (0 : ℕ) = (0 : ZMod PRIME).val := by simp
  have h1 : (1 : ℕ) = (1 : ZMod PRIME).val := (ZMod.val_one PRIME).symm
  rw [h0, h1, evalPolyAux_eq]
  simp

lemma evaluatePolynomial_lt (c : List ℕ) (x : ℕ) :
    evaluatePolynomial c x < PRIME := by
  rw [evaluatePolynomial_eq]
  exact ZMod.val_lt _

/-! ## Lagrange interpolation at zero, in explicit product form -/

/-- Evaluation at `0` of a polynomial of degree `< #s` equals the Lagrange
sum used by the code: `Σ_i f(v i) · (Π_{j≠i} (-v j)) · (Π_{j≠i} (v i - v j))⁻¹`. -/
lemma eval_zero_eq_lagrange_sum {F : Type} [Field F] {ι : Type} [DecidableEq ι]
    (s : Finset ι) (v : ι → F) (hvs : Set.InjOn v s) (f : Polynomial F)
    (hdeg : f.degree < s.card) :
    Polynomial.eval 0 f
      = ∑ i ∈ s, Polynomial.eval (v i) f *
          ((∏ j ∈ s.erase i, (-v j)) * (∏ j ∈ s.erase i, (v i - v j))⁻¹) := by
  conv_lhs => rw [Lagrange.eq_interpolate hvs hdeg]
  rw [Lagrange.interpolate_apply, Polynomial.eval_finset_sum]
  refine Finset.sum_congr rfl fun i hi => ?_
  rw [Polynomial.eval_mul, Polynomial.eval_C]
  congr 1
  rw [Lagrange.basis, Polynomial.eval_prod, ← Finset.prod_inv_distrib,
    ← Finset.prod_mul_distrib]
  refine Finset.prod_congr rfl fun j hj => ?_
  rw [Lagrange.basisDivisor, Polynomial.eval_mul, Polynomial.eval_C,
    Polynomial.eval_sub, Polynomial.eval_X, Polynomial.eval_C, zero_sub]
  ring

lemma prod_ite_ne_eq_erase (s : Finset ℕ) (i : ℕ) (w : ℕ → ZMod PRIME) :
    (∏ j ∈ s, (if i ≠ j then w j else 1)) = ∏ j ∈ s.erase i, w j := by
  rw [← Finset.prod_erase s (by simp : (if i ≠ i then w i else 1) = 1)]
  refine Finset.prod_congr rfl fun j hj => ?_
  rw [if_pos (Ne.symm (Finset.mem_erase.mp hj).1)]

lemma lagrangeNumDen_val (points : List (ℕ × ℕ)) (i : ℕ) :
    lagrangeNumDen points i
      = ((∏ j ∈ Finset.range points.length,
            (if i ≠ j then (((PRIME - (points.getD j (0, 0)).1) % PRIME : ℕ) : ZMod PRIME)
              else 1)).val,
         (∏ j ∈ Finset.range points.length,
            (if i ≠ j then ((((points.getD i (0, 0)).1 + PRIME
                - (points.getD j (0, 0)).1) % PRIME : ℕ) : ZMod PRIME) else 1)).val) := by
  rw [lagrangeNumDen,
    foldl_pair_split i
      (fun x j => x * ((PRIME - (points.getD j (0, 0)).1) % PRIME) % PRIME)
      (fun x j => x * (((points.getD i (0, 0)).1 + PRIME
        - (points.getD j (0, 0)).1) % PRIME) % PRIME)
      (List.range points.length) 1 1]
  have h1 : (1 : ℕ) = (1 : ZMod PRIME).val := (ZMod.val_one PRIME).symm
  rw [h1, foldl_range_mulmod_ite, foldl_range_mulmod_ite, one_mul, one_mul]

lemma foldl_range_addmod_zero (g : ℕ → ℕ) (n : ℕ) :
    (List.range n).foldl (fun acc i => (acc + g i) % PRIME) 0
      = (∑ i ∈ Finset.range n, ((g i : ℕ) : ZMod PRIME)).val := by
  have h := foldl_range_addmod g 0 n
  rw [ZMod.val_zero, zero_add] at h
  exact h

/-- Interpolating, at `x = 0`, points that lie on the polynomial with
coefficient list `c` at pairwise distinct `x`-coordinates below `PRIME`
recovers the constant coefficient of `c`, reduced mod `PRIME`. -/
lemma lagrangeInterpolate_eval_points (c xs : List ℕ) (hc : c ≠ [])
    (hlen : c.length ≤ xs.length) (hnd : xs.Nodup)
    (hxlt : ∀ x ∈ xs, x < PRIME) :
    lagrangeInterpolate (xs.map (fun x => (x, evaluatePolynomial c x)))
      = c.getD 0 0 % PRIME := by
  set points := xs.map (fun x => (x, evaluatePolynomial c x)) with hpoints
  have hplen : points.length = xs.length := by simp [hpoints]
  set v : ℕ → ZMod PRIME := fun j => ((xs.getD j 0 : ℕ) : ZMod PRIME) with hv
  have hpt : ∀ j, j < xs.length →
      points.getD j (0, 0) = (xs.getD j 0, evaluatePolynomial c (xs.getD j 0)) := by
    intro j hj
    have hj' : j < points.length := by omega
    rw [List.getD_eq_getElem _ _ hj', List.getD_eq_getElem _ _ hj]
    simp only [hpoints, List.getElem_map]
  have hgdmem : ∀ j, j < xs.length → xs.getD j 0 ∈ xs := by
    intro j hj
    rw [List.getD_eq_getElem _ _ hj]
    exact List.getElem_mem hj
  have hinj : Set.InjOn v ↑(Finset.range xs.length) := by
    intro i hi j hj hij
    simp only [Finset.coe_range, Set.mem_Iio] at hi hj
    have hval := congrArg ZMod.val hij
    simp only [hv] at hval
    rw [ZMod.val_cast_of_lt (hxlt _ (hgdmem i hi)),
      ZMod.val_cast_of_lt (hxlt _ (hgdmem j hj))] at hval
    have hget : xs.get ⟨i, hi⟩ = xs.get ⟨j, hj⟩ := by
      rw [List.get_eq_getElem, List.get_eq_getElem,
        ← List.getD_eq_getElem xs 0 hi, ← List.getD_eq_getElem xs 0 hj, hval]
    have := List.nodup_iff_injective_get.mp hnd hget
    exact congrArg Fin.val this
  have hvne : ∀ i ∈ Finset.range xs.length, ∀ j ∈ Finset.range xs.length,
      i ≠ j → v i - v j ≠ 0 := by
    intro i hi j hj hij
    apply sub_ne_zero_of_ne
    intro hvv
    exact hij (hinj (by simpa using hi) (by simpa using hj) hvv)
  -- unfold the interpolation loop into a field sum
  rw [lagrangeInterpolate, hplen, foldl_range_addmod_zero]
  -- rewrite the summand into the explicit Lagrange form
  have hsum : ∑ i ∈ Finset.range xs.length,
        (((points.getD i (0, 0)).2 *
          ((lagrangeNumDen points i).1 * modInverse (lagrangeNumDen points i).2 PRIME
            % PRIME) : ℕ) : ZMod PRIME)
      = ∑ i ∈ Finset.range xs.length,
          Polynomial.eval (v i) (toPoly c) *
            ((∏ j ∈ (Finset.range xs.length).erase i, (-v j)) *
             (∏ j ∈ (Finset.range xs.length).erase i, (v i - v j))⁻¹) := by
    refine Finset.sum_congr rfl fun i hi => ?_
    have hi' : i < xs.length := Finset.mem_range.mp hi
    have hnum_cast :
        (((lagrangeNumDen points i).1 : ℕ) : ZMod PRIME)
          = ∏ j ∈ (Finset.range xs.length).erase i, (-v j) := by
      rw [lagrangeNumDen_val, hplen, ZMod.natCast_zmod_val,
        prod_ite_ne_eq_erase]
      refine Finset.prod_congr rfl fun j hj => ?_
      have hj' : j < xs.length := Finset.mem_range.mp (Finset.mem_of_mem_erase hj)
      rw [hpt j hj']
      rw [ZMod.natCast_mod,
        Nat.cast_sub (le_of_lt (hxlt _ (hgdmem j hj'))), ZMod.natCast_self, zero_sub]
    have hden_cast :
        (((lagrangeNumDen points i).2 : ℕ) : ZMod PRIME)
          = ∏ j ∈ (Finset.range xs.length).erase i, (v i - v j) := by
      rw [lagrangeNumDen_val, hplen, ZMod.natCast_zmod_val,
        prod_ite_ne_eq_erase]
      refine Finset.prod_congr rfl fun j hj => ?_
      have hj' : j < xs.length := Finset.mem_range.mp (Finset.mem_of_mem_erase hj)
      rw [hpt j hj', hpt i hi']
      rw [ZMod.natCast_mod,
        Nat.cast_sub (le_trans (le_of_lt (hxlt _ (hgdmem j hj'))) (by omega)),
        Nat.cast_add, ZMod.natCast_self, add_zero]
    have hden_ne : (∏ j ∈ (Finset.range xs.length).erase i, (v i - v j)) ≠ 0 := by
      rw [Finset.prod_ne_zero_iff]
      intro j hj
      exact hvne i hi j (Finset.mem_of_mem_erase hj)
        (Ne.symm (Finset.mem_erase.mp hj).1)
    have hinv_cast :
        ((modInverse (lagrangeNumDen points i).2 PRIME : ℕ) : ZMod PRIME)
          = (∏ j ∈ (Finset.range xs.length).erase i, (v i - v j))⁻¹ := by
      rw [modInverse_cast_eq_inv _ (by rw [hden_cast]; exact hden_ne), hden_cast]
    have hy_cast : (((points.getD i (0, 0)).2 : ℕ) : ZMod PRIME)
        = Polynomial.eval (v i) (toPoly c) := by
      rw [hpt i hi']
      rw [evaluatePolynomial_eq, ZMod.natCast_zmod_val]
    rw [Nat.cast_mul, ZMod.natCast_mod, Nat.cast_mul, hy_cast, hnum_cast, hinv_cast]
  rw [hsum]
  -- apply the interpolation identity
  have hdeg : (toPoly c).degree < ((Finset.range xs.length).card : WithBot ℕ) := by
    rw [Finset.card_range]
    exact lt_of_lt_of_le (toPoly_degree_lt c) (by exact_mod_cast hlen)
  rw [← eval_zero_eq_lagrange_sum (Finset.range xs.length) v hinj (toPoly c) hdeg]
  obtain ⟨c0, cs, rfl⟩ := List.exists_cons_of_ne_nil hc
  rw [toPoly_eval_zero, ZMod.val_natCast]
  rfl

/-! ## The split/combine round trip -/

/-- Successful `splitSecret` returns exactly the evaluations at `1..N`. -/
lemma splitSecret_ok (rand : ℕ → List ℕ) (secret : List ℕ) (M N : ℕ)
    (hsec_len : secret.length = 32) (hM : 2 ≤ M) (hMN : M ≤ N) (hN : N ≤ 255) :
    splitSecret rand secret M N
      = Except.ok ((List.range N).map fun i =>
          { index := i + 1
            value := bigIntToBytes (evaluatePolynomial
              (generateCoefficients rand (bytesToBigInt secret) (M - 1)) (i + 1)) }) := by
  rw [splitSecret, if_neg (by omega), if_neg (by omega), if_neg (by omega),
    if_neg (by omega)]

lemma generateCoefficients_length (rand : ℕ → List ℕ) (s d : ℕ) :
    (generateCoefficients rand s d).length = d + 1 := by
  simp [generateCoefficients]

lemma generateCoefficients_head (rand : ℕ → List ℕ) (s d : ℕ) :
    (generateCoefficients rand s d).getD 0 0 = s := by
  simp [generateCoefficients]

/-- Round trip: combining any collection of at least `threshold` pairwise
distinct shares out of a successful `splitSecret` recovers the secret,
provided the secret's big-endian value lies below `PRIME`. -/
lemma combineShares_splitSecret (rand : ℕ → List ℕ) (secret : List ℕ)
    (M N : ℕ) (sel : List ℕ) (shares : List SecretShare)
    (hsec_len : secret.length = 32) (hsec_bytes : ∀ b ∈ secret, b < 256)
    (hsec_val : bytesToBigInt secret < PRIME)
    (hM : 2 ≤ M) (hMN : M ≤ N) (hN : N ≤ 255)
    (hnd : sel.Nodup) (hsel_lt : ∀ k ∈ sel, k < N) (hsel_len : M ≤ sel.length)
    (hsplit : splitSecret rand secret M N = Except.ok shares) :
    combineShares (sel.map fun k => shares.getD k { index := 0, value := [] })
      = Except.ok secret := by
  rw [splitSecret_ok rand secret M N hsec_len hM hMN hN] at hsplit
  have hshares := Except.ok.inj hsplit
  set coeffs := generateCoefficients rand (bytesToBigInt secret) (M - 1) with hcoeffs
  have hsharesLen : shares.length = N := by rw [← hshares]; simp
  have hshare : ∀ k, k < N → shares.getD k { index := 0, value := [] }
      = { index := k + 1
          value := bigIntToBytes (evaluatePolynomial coeffs (k + 1)) } := by
    intro k hk
    have hk' : k < shares.length := by omega
    rw [List.getD_eq_getElem _ _ hk']
    simp only [← hshares, List.getElem_map, List.getElem_range]
  set selected := sel.map (fun k => shares.getD k { index := 0, value := [] })
    with hselected
  have hselLen : selected.length = sel.length := by simp [hselected]
  rw [combineShares, if_neg (by omega)]
  have hpoints : selected.map (fun share => (share.index, bytesToBigInt share.value))
      = (sel.map (fun k => k + 1)).map (fun x => (x, evaluatePolynomial coeffs x)) := by
    rw [hselected, List.map_map, List.map_map]
    apply List.map_congr_left
    intro k hk
    simp only [Function.comp_apply]
    rw [hshare k (hsel_lt k hk)]
    have hlt : evaluatePolynomial coeffs (k + 1) < 2 ^ 256 :=
      lt_trans (evaluatePolynomial_lt coeffs (k + 1)) (by norm_num [PRIME])
    rw [bytesToBigInt_bigIntToBytes _ hlt]
  rw [hpoints]
  show Except.ok (bigIntToBytes (lagrangeInterpolate
      ((sel.map (fun k => k + 1)).map (fun x => (x, evaluatePolynomial coeffs x)))))
    = Except.ok secret
  rw [lagrangeInterpolate_eval_points coeffs (sel.map (fun k => k + 1))
    (by rw [hcoeffs, generateCoefficients]; exact List.cons_ne_nil _ _)
    (by rw [hcoeffs, generateCoefficients_length, List.length_map]; omega)
    (hnd.map (fun a b hab => by omega))
    (by intro x hx
        simp only [List.mem_map] at hx
        obtain ⟨k, hk, rfl⟩ := hx
        have := hsel_lt k hk
        norm_num [PRIME]
        omega)]
  rw [hcoeffs, generateCoefficients_head, Nat.mod_eq_of_lt hsec_val,
    bigIntToBytes_bytesToBigInt secret hsec_len hsec_bytes]

/-! ## Remaining helper lemmas -/

lemma lagrangeInterpolate_lt (points : List (ℕ × ℕ)) :
    lagrangeInterpolate points < PRIME := by
  rw [lagrangeInterpolate, foldl_range_addmod_zero]
  exact ZMod.val_lt _

lemma list_map_range_getD (l : List ℕ) :
    (List.range l.length).map (fun i => l.getD i 0) = l := by
  apply List.ext_getElem
  · simp
  · intro i h1 h2
    simp only [List.getElem_map, List.getElem_range]
    exact List.getD_eq_getElem l 0 h2

lemma range_all_getD_eq (r1 r2 : List ℕ) (hlen : r1.length = r2.length) :
    (((List.range r1.length).all fun i => r1.getD i 0 == r2.getD i 256) = true
      ↔ r1 = r2) := by
  rw [List.all_eq_true]
  constructor
  · intro h
    apply List.ext_getElem hlen
    intro i h1 h2
    have hb := h i (by simpa using h1)
    rw [beq_iff_eq, List.getD_eq_getElem r1 0 h1, List.getD_eq_getElem r2 256 h2] at hb
    exact hb
  · intro h i hi
    subst h
    simp only [List.mem_range] at hi
    rw [beq_iff_eq, List.getD_eq_getElem r1 0 hi, List.getD_eq_getElem r1 256 hi]

/-! ## Claim theorems -/

/-- C3: `splitSecret` validates its preconditions in this exact order, each
raising a distinct error: 32-byte secret, then `threshold >= 2`, then
`totalShares >= threshold`, then `totalShares <= 255`; on a validation failure
an error (and no share list) is returned, uniformly in the random stream, and
on valid inputs a share list is produced. -/
theorem C3_splitSecret_validation (rand : ℕ → List ℕ) (secret : List ℕ) (M N : ℕ) :
    (secret.length ≠ 32 →
      splitSecret rand secret M N = Except.error "Secret must be 32 bytes") ∧
    (secret.length = 32 → M < 2 →
      splitSecret rand secret M N = Except.error "Threshold must be at least 2") ∧
    (secret.length = 32 → 2 ≤ M → N < M →
      splitSecret rand secret M N = Except.error "Total shares must be >= threshold") ∧
    (secret.length = 32 → 2 ≤ M → M ≤ N → 255 < N →
      splitSecret rand secret M N = Except.error "Maximum 255 shares supported") ∧
    (secret.length = 32 → 2 ≤ M → M ≤ N → N ≤ 255 →
      ∃ shares, splitSecret rand secret M N = Except.ok shares) := by
  refine ⟨?_, ?_, ?_, ?_, ?_⟩
  · intro h1
    rw [splitSecret, if_pos h1]
  · intro h1 h2
    rw [splitSecret, if_neg (by omega), if_pos h2]
  · intro h1 h2 h3
    rw [splitSecret, if_neg (by omega), if_neg (by omega), if_pos h3]
  · intro h1 h2 h3 h4
    rw [splitSecret, if_neg (by omega), if_neg (by omega), if_neg (by omega), if_pos h4]
  · intro h1 h2 h3 h4
    exact ⟨_, splitSecret_ok rand secret M N h1 h2 h3 h4⟩

/-- Checks each of the five branches of the C3 theorem on a concrete input. -/
theorem C3_splitSecret_validation_witness :
    (splitSecret (fun _ => []) [0] 2 3 = Except.error "Secret must be 32 bytes") ∧
    (splitSecret (fun _ => []) (List.replicate 32 0) 1 5
      = Except.error "Threshold must be at least 2") ∧
    (splitSecret (fun _ => []) (List.replicate 32 0) 4 3
      = Except.error "Total shares must be >= threshold") ∧
    (splitSecret (fun _ => []) (List.replicate 32 0) 2 256
      = Except.error "Maximum 255 shares supported") ∧
    (∃ shares, splitSecret (fun _ => []) (List.replicate 32 0) 2 3
      = Except.ok shares) :=
  ⟨(C3_splitSecret_validation (fun _ => []) [0] 2 3).1 (by decide),
   (C3_splitSecret_validation (fun _ => []) (List.replicate 32 0) 1 5).2.1
      (by decide) (by decide),
   (C3_splitSecret_validation (fun _ => []) (List.replicate 32 0) 4 3).2.2.1
      (by decide) (by decide) (by decide),
   (C3_splitSecret_validation (fun _ => []) (List.replicate 32 0) 2 256).2.2.2.1
      (by decide) (by decide) (by decide) (by decide),
   (C3_splitSecret_validation (fun _ => []) (List.replicate 32 0) 2 3).2.2.2.2
      (by decide) (by decide) (by decide) (by decide)⟩

/-- C4: on success, `splitSecret(secret, M, N)` returns exactly `N` shares with
indices `1, 2, ..., N` in order, each value being the 32-byte big-endian
encoding of the degree-`(M-1)` polynomial (constant term the secret) evaluated
at `x = index` by the iterated-power accumulation of `evaluatePolynomial`; in
particular every evaluation point is at least `1`, never `0`. -/
theorem C4_splitSecret_shape (rand : ℕ → List ℕ) (secret : List ℕ) (M N : ℕ)
    (shares : List SecretShare)
    (hlen : secret.length = 32) (hM : 2 ≤ M) (hMN : M ≤ N) (hN : N ≤ 255)
    (hsplit : splitSecret rand secret M N = Except.ok shares) :
    shares.length = N ∧
    (∀ k, k < N →
      shares.getD k { index := 0, value := [] }
        = { index := k + 1
            value := bigIntToBytes (evaluatePolynomial
              (generateCoefficients rand (bytesToBigInt secret) (M - 1)) (k + 1)) }) ∧
    (∀ k, k < N → 1 ≤ (shares.getD k { index := 0, value := [] }).index) := by
  rw [splitSecret_ok rand secret M N hlen hM hMN hN] at hsplit
  have hshares := Except.ok.inj hsplit
  have hsharesLen : shares.length = N := by rw [← hshares]; simp
  have hshape : ∀ k, k < N →
      shares.getD k { index := 0, value := [] }
        = { index := k + 1
            value := bigIntToBytes (evaluatePolynomial
              (generateCoefficients rand (bytesToBigInt secret) (M - 1)) (k + 1)) } := by
    intro k hk
    have hk' : k < shares.length := by omega
    rw [List.getD_eq_getElem _ _ hk']
    simp only [← hshares, List.getElem_map, List.getElem_range]
  refine ⟨hsharesLen, hshape, fun k hk => ?_⟩
  rw [hshape k hk]
  show 1 ≤ k + 1
  omega

/-- Checks the C4 share-shape theorem at a concrete split. -/
theorem C4_splitSecret_shape_witness :
    ((splitSecret (fun _ => [7]) (List.replicate 32 1) 2 3).toOption.getD []).length = 3 :=
  (C4_splitSecret_shape (fun _ => [7]) (List.replicate 32 1) 2 3
    ((splitSecret (fun _ => [7]) (List.replicate 32 1) 2 3).toOption.getD [])
    (by decide) (by decide) (by decide) (by decide) (by decide)).1

/-- C5: `combineShares` fails with the insufficient-shares error exactly when
fewer than 2 shares are supplied; with 2 or more shares it performs no
threshold check and returns the 32-byte big-endian encoding of the Lagrange
interpolation at `x = 0` of the points `(index, value)`. -/
theorem C5_combineShares_spec (shares : List SecretShare) :
    (combineShares shares = Except.error "At least 2 shares required"
      ↔ shares.length < 2) ∧
    (2 ≤ shares.length →
      combineShares shares
          = Except.ok (bigIntToBytes (lagrangeInterpolate
              (shares.map fun share => (share.index, bytesToBigInt share.value)))) ∧
        ∀ result, combineShares shares = Except.ok result → result.length = 32) := by
  constructor
  · constructor
    · intro h
      by_contra hlen
      rw [combineShares, if_neg hlen] at h
      exact Except.noConfusion h
    · intro hlen
      rw [combineShares, if_pos hlen]
  · intro hlen
    have hok : combineShares shares
        = Except.ok (bigIntToBytes (lagrangeInterpolate
            (shares.map fun share => (share.index, bytesToBigInt share.value)))) := by
      rw [combineShares, if_neg (by omega)]
    refine ⟨hok, fun result hres => ?_⟩
    rw [hok] at hres
    rw [← Except.ok.inj hres, bigIntToBytes_length]

/-- Checks the C5 theorem on concrete share lists of lengths 1 and 2. -/
theorem C5_combineShares_spec_witness :
    (combineShares [{ index := 1, value := List.replicate 32 0 }]
      = Except.error "At least 2 shares required") ∧
    (combineShares [{ index := 1, value := List.replicate 32 0 },
        { index := 2, value := List.replicate 32 0 }]
      = Except.ok (bigIntToBytes (lagrangeInterpolate
          (([{ index := 1, value := List.replicate 32 0 },
             { index := 2, value := List.replicate 32 0 }] : List SecretShare).map
            fun share => (share.index, bytesToBigInt share.value))))) :=
  ⟨(C5_combineShares_spec [{ index := 1, value := List.replicate 32 0 }]).1.mpr
      (by decide),
   ((C5_combineShares_spec [{ index := 1, value := List.replicate 32 0 },
      { index := 2, value := List.replicate 32 0 }]).2 (by decide)).1⟩

/-- C6: `verifyShares` is a total Boolean probe (the `try/catch` is modelled by
matching on `Except`): it returns `false` immediately when fewer shares than
the expected threshold are supplied, and an internal `combineShares` failure
(fewer than 2 shares in the probed subset) also surfaces as `false`, never as
an error. -/
theorem C6_verifyShares_safe (shares : List SecretShare) (expectedThreshold : ℕ) :
    (shares.length < expectedThreshold →
      verifyShares shares expectedThreshold = false) ∧
    (min expectedThreshold shares.length < 2 →
      verifyShares shares expectedThreshold = false) := by
  constructor
  · intro h
    rw [verifyShares, if_pos h]
  · intro hmin
    by_cases hlt : shares.length < expectedThreshold
    · rw [verifyShares, if_pos hlt]
    · have hc : combineShares (shares.take expectedThreshold)
          = Except.error "At least 2 shares required" := by
        rw [combineShares, if_pos (by simp only [List.length_take]; omega)]
      rw [verifyShares, if_neg hlt, hc]

/-- Checks the C6 theorem with an empty share list and threshold 1. -/
theorem C6_verifyShares_safe_witness :
    verifyShares [] 1 = false ∧
    verifyShares [{ index := 1, value := List.replicate 32 0 }] 1 = false :=
  ⟨(C6_verifyShares_safe [] 1).1 (by decide),
   (C6_verifyShares_safe [{ index := 1, value := List.replicate 32 0 }] 1).2 (by decide)⟩

/-- C7: with exactly `expectedThreshold` (at least 2) shares, `verifyShares`
returns `true` with no cross-validation; with more shares it returns `true`
exactly when combining the first `expectedThreshold` shares and combining the
by-one-shifted subset give byte-for-byte equal results. -/
theorem C7_verifyShares_consistency (shares : List SecretShare)
    (t : ℕ) (ht : 2 ≤ t) :
    (shares.length = t → verifyShares shares t = true) ∧
    (t < shares.length →
      (verifyShares shares t = true ↔
        combineShares (shares.take t) = combineShares ((shares.drop 1).take t))) := by
  constructor
  · intro hlen
    have hcomb1 : combineShares (shares.take t)
        = Except.ok (bigIntToBytes (lagrangeInterpolate
            ((shares.take t).map fun share => (share.index, bytesToBigInt share.value)))) := by
      rw [combineShares, if_neg (by simp only [List.length_take]; omega)]
    rw [verifyShares, if_neg (by omega), hcomb1]
    show (if t < shares.length then _ else true) = true
    rw [if_neg (by omega)]
  · intro hgt
    have hcomb1 : combineShares (shares.take t)
        = Except.ok (bigIntToBytes (lagrangeInterpolate
            ((shares.take t).map fun share => (share.index, bytesToBigInt share.value)))) := by
      rw [combineShares, if_neg (by simp only [List.length_take]; omega)]
    have hcomb2 : combineShares ((shares.drop 1).take t)
        = Except.ok (bigIntToBytes (lagrangeInterpolate
            (((shares.drop 1).take t).map
              fun share => (share.index, bytesToBigInt share.value)))) := by
      rw [combineShares,
        if_neg (by simp only [List.length_take, List.length_drop]; omega)]
    set r1 := bigIntToBytes (lagrangeInterpolate
      ((shares.take t).map fun share => (share.index, bytesToBigInt share.value)))
      with hr1
    set r2 := bigIntToBytes (lagrangeInterpolate
      (((shares.drop 1).take t).map fun share => (share.index, bytesToBigInt share.value)))
      with hr2
    rw [verifyShares, if_neg (by omega), hcomb1]
    show ((if t < shares.length then
        (match combineShares ((shares.drop 1).take t) with
          | .error _ => false
          | .ok result2 =>
            (List.range r1.length).all (fun i => r1.getD i 0 == result2.getD i 256))
        else true) = true) ↔ _
    rw [if_pos hgt, hcomb2]
    show (((List.range r1.length).all fun i => r1.getD i 0 == r2.getD i 256) = true)
      ↔ Except.ok r1 = Except.ok r2
    rw [Except.ok.injEq]
    exact range_all_getD_eq r1 r2 (by rw [hr1, hr2, bigIntToBytes_length, bigIntToBytes_length])

/-- Checks the C7 theorem for both the exact-threshold and the larger case. -/
theorem C7_verifyShares_consistency_witness :
    (verifyShares [{ index := 1, value := List.replicate 32 0 },
        { index := 2, value := List.replicate 32 0 }] 2 = true) ∧
    (verifyShares [{ index := 1, value := List.replicate 32 0 },
        { index := 2, value := List.replicate 32 0 },
        { index := 3, value := List.replicate 32 0 }] 2 = true ↔
      combineShares (([{ index := 1, value := List.replicate 32 0 },
          { index := 2, value := List.replicate 32 0 },
          { index := 3, value := List.replicate 32 0 }] : List SecretShare).take 2)
        = combineShares ((([{ index := 1, value := List.replicate 32 0 },
            { index := 2, value := List.replicate 32 0 },
            { index := 3, value := List.replicate 32 0 }] : List SecretShare).drop 1).take 2)) :=
  ⟨(C7_verifyShares_consistency [{ index := 1, value := List.replicate 32 0 },
      { index := 2, value := List.replicate 32 0 }] 2 (by decide)).1 (by decide),
   (C7_verifyShares_consistency [{ index := 1, value := List.replicate 32 0 },
      { index := 2, value := List.replicate 32 0 },
      { index := 3, value := List.replicate 32 0 }] 2 (by decide)).2 (by decide)⟩

/-- C1 (amended): for every valid threshold `M` and share count `N` with
`2 ≤ M ≤ N ≤ 255` and every 32-byte secret whose big-endian value is below
`PRIME` (the spec's data model for secrets), `combineShares` applied to the
shares at any collection of at least `M` pairwise distinct positions of
`splitSecret`'s output — non-prefix subsets such as positions 1,3,5 and the
full share list included — returns the original 32-byte secret, for every
random stream.  (The restriction to values below `PRIME` is forced by
`C1_counterexample`.) -/
theorem C1_split_combine_roundTrip (rand : ℕ → List ℕ) (secret : List ℕ)
    (M N : ℕ) (sel : List ℕ) (shares : List SecretShare)
    (hsec_len : secret.length = 32) (hsec_bytes : ∀ b ∈ secret, b < 256)
    (hsec_val : bytesToBigInt secret < PRIME)
    (hM : 2 ≤ M) (hMN : M ≤ N) (hN : N ≤ 255)
    (hnd : sel.Nodup) (hsel_lt : ∀ k ∈ sel, k < N) (hsel_len : M ≤ sel.length)
    (hsplit : splitSecret rand secret M N = Except.ok shares) :
    combineShares (sel.map fun k => shares.getD k { index := 0, value := [] })
      = Except.ok secret :=
  combineShares_splitSecret rand secret M N sel shares hsec_len hsec_bytes hsec_val
    hM hMN hN hnd hsel_lt hsel_len hsplit

/-- C1 as frozen is false for 32-byte secrets whose big-endian value reaches
`PRIME`: splitting the byte encoding of `PRIME` itself (with an explicit
random stream) and recombining both of 2-of-2 shares yields the reduction mod
`PRIME`, not the original bytes. -/
theorem C1_counterexample :
    ((splitSecret (fun _ => []) (bigIntToBytes PRIME) 2 2).toOption.map
      combineShares).isSome = true ∧
    (splitSecret (fun _ => []) (bigIntToBytes PRIME) 2 2).toOption.map combineShares
      ≠ some (Except.ok (bigIntToBytes PRIME)) :=
  ⟨by decide, by decide⟩

/-- Checks the C1 round-trip theorem on a 2-of-5 split recombined from the
non-prefix position set 1,3. -/
theorem C1_split_combine_roundTrip_witness :
    ((List.replicate 32 0 : List ℕ).length = 32 ∧
      bytesToBigInt (List.replicate 32 0) < PRIME ∧ ([1, 3] : List ℕ).Nodup) ∧
    combineShares (([1, 3] : List ℕ).map fun k =>
        ((splitSecret (fun _ => [1]) (List.replicate 32 0) 2 5).toOption.getD []).getD k
          { index := 0, value := [] })
      = Except.ok (List.replicate 32 0) :=
  ⟨⟨by decide, by decide, by decide⟩,
   C1_split_combine_roundTrip (fun _ => [1]) (List.replicate 32 0) 2 5 [1, 3]
    ((splitSecret (fun _ => [1]) (List.replicate 32 0) 2 5).toOption.getD [])
    (by decide) (by decide) (by decide) (by decide) (by decide) (by decide)
    (by decide) (by decide) (by decide) (by decide)⟩

/-- C8: for every `a` with `0 < a < PRIME`, `modInverse(a, PRIME)` lies in
`[0, PRIME)` (the extended-Euclid result is normalized from a possibly
negative value) and satisfies `(a * modInverse(a, PRIME)) % PRIME = 1`. -/
theorem C8_modInverse_inverse (a : ℕ) (h0 : 0 < a) (ha : a < PRIME) :
    modInverse a PRIME < PRIME ∧ a * modInverse a PRIME % PRIME = 1 := by
  apply modInverse_spec a PRIME PRIME_gt_one
  have hndvd : ¬ PRIME ∣ a := fun hdvd => absurd (Nat.le_of_dvd h0 hdvd) (by omega)
  exact Nat.Coprime.symm ((Nat.Prime.coprime_iff_not_dvd PRIME_prime).mpr hndvd)

/-- Checks the C8 inverse theorem at `a = 2`. -/
theorem C8_modInverse_inverse_witness :
    (0 < 2 ∧ 2 < PRIME) ∧
    (modInverse 2 PRIME < PRIME ∧ 2 * modInverse 2 PRIME % PRIME = 1) :=
  ⟨⟨by decide, by decide⟩, C8_modInverse_inverse 2 (by decide) (by decide)⟩

/-- C9: for every list of at least 2 shares with 32-byte values — even values
encoding integers at or above `PRIME` — the output bytes of `combineShares`
decode (big-endian) to a value strictly below `PRIME`, because every
accumulation in `lagrangeInterpolate` is reduced mod `PRIME` before
`bigIntToBytes` encodes the result. -/
theorem C9_combine_output_in_field (shares : List SecretShare) (result : List ℕ)
    (hlen : 2 ≤ shares.length) (_hvals : ∀ sh ∈ shares, sh.value.length = 32)
    (hcomb : combineShares shares = Except.ok result) :
    bytesToBigInt result < PRIME := by
  rw [combineShares, if_neg (by omega)] at hcomb
  rw [← Except.ok.inj hcomb,
    bytesToBigInt_bigIntToBytes _
      (lt_trans (lagrangeInterpolate_lt _) (by norm_num [PRIME]))]
  exact lagrangeInterpolate_lt _

/-- Checks the C9 theorem on a share list whose values encode `2^256 - 1`,
which is above `PRIME`. -/
theorem C9_combine_output_in_field_witness :
    bytesToBigInt (((combineShares
      [{ index := 1, value := List.replicate 32 255 },
       { index := 2, value := List.replicate 32 255 }]).toOption.getD [])) < PRIME :=
  C9_combine_output_in_field
    [{ index := 1, value := List.replicate 32 255 },
     { index := 2, value := List.replicate 32 255 }]
    ((combineShares [{ index := 1, value := List.replicate 32 255 },
       { index := 2, value := List.replicate 32 255 }]).toOption.getD [])
    (by decide) (by decide) (by decide)

/-- C10: `modInverse(0, PRIME)` returns `0` instead of failing, and
`combineShares` is total on every list of at least two 32-byte-valued shares,
duplicate share indices included: it returns a 32-byte result rather than an
error or a division by zero. -/
theorem C10_combine_total (shares : List SecretShare)
    (hlen : 2 ≤ shares.length) (_hvals : ∀ sh ∈ shares, sh.value.length = 32) :
    modInverse 0 PRIME = 0 ∧
    ∃ result, combineShares shares = Except.ok result ∧ result.length = 32 :=
  ⟨by decide,
   ⟨bigIntToBytes (lagrangeInterpolate (shares.map fun share =>
       (share.index, bytesToBigInt share.value))),
    by rw [combineShares, if_neg (by omega)], bigIntToBytes_length _⟩⟩

/-- Checks the C10 totality theorem on a share list with duplicate indices. -/
theorem C10_combine_total_witness :
    modInverse 0 PRIME = 0 ∧
    ∃ result, combineShares
        [{ index := 1, value := List.replicate 32 0 },
         { index := 1, value := List.replicate 32 0 }] = Except.ok result ∧
      result.length = 32 :=
  C10_combine_total
    [{ index := 1, value := List.replicate 32 0 },
     { index := 1, value := List.replicate 32 0 }]
    (by decide) (by decide)

/-- C2 (amended): `createThresholdEncryption` produces a ciphertext of the
same length as the plaintext with `encryptedSecret[i] = secret[i] XOR
key[i mod 32]` for secrets of any length, together with `N` key shares; and —
provided the random 32-byte key's big-endian value is below `PRIME` (a
restriction forced by `C2_counterexample`) — `decryptWithThreshold` applied
to that ciphertext and the key shares at any collection of at least `M`
pairwise distinct positions (non-prefix subsets included) returns the
original secret. -/
theorem C2_threshold_cipher (encryptionKey : List ℕ) (rand : ℕ → List ℕ)
    (secret : List ℕ) (M N : ℕ) (sel : List ℕ)
    (enc : List ℕ) (keyShares : List SecretShare)
    (hkey_len : encryptionKey.length = 32) (hkey_bytes : ∀ b ∈ encryptionKey, b < 256)
    (hkey_val : bytesToBigInt encryptionKey < PRIME)
    (hM : 2 ≤ M) (hMN : M ≤ N) (hN : N ≤ 255)
    (hnd : sel.Nodup) (hsel_lt : ∀ k ∈ sel, k < N) (hsel_len : M ≤ sel.length)
    (henc : createThresholdEncryption encryptionKey rand secret M N
      = Except.ok (enc, keyShares)) :
    enc.length = secret.length ∧
    (∀ i, i < secret.length →
      enc.getD i 0 = Nat.xor (secret.getD i 0) (encryptionKey.getD (i % 32) 0)) ∧
    decryptWithThreshold enc
        (sel.map fun k => keyShares.getD k { index := 0, value := [] })
      = Except.ok secret := by
  rw [createThresholdEncryption,
    splitSecret_ok rand encryptionKey M N hkey_len hM hMN hN] at henc
  have hpair := Except.ok.inj henc
  have hencEq := congrArg Prod.fst hpair
  have hsharesEq := congrArg Prod.snd hpair
  simp only at hencEq hsharesEq
  have hsplitk : splitSecret rand encryptionKey M N = Except.ok keyShares := by
    rw [splitSecret_ok rand encryptionKey M N hkey_len hM hMN hN, hsharesEq]
  have hlen1 : enc.length = secret.length := by rw [← hencEq]; simp
  have hpt : ∀ i, i < secret.length →
      enc.getD i 0 = Nat.xor (secret.getD i 0) (encryptionKey.getD (i % 32) 0) := by
    intro i hi
    rw [← hencEq]
    rw [List.getD_eq_getElem _ _ (by simpa using hi)]
    simp only [List.getElem_map, List.getElem_range]
  refine ⟨hlen1, hpt, ?_⟩
  have hcombk : combineShares
      (sel.map fun k => keyShares.getD k { index := 0, value := [] })
      = Except.ok encryptionKey :=
    combineShares_splitSecret rand encryptionKey M N sel keyShares hkey_len hkey_bytes
      hkey_val hM hMN hN hnd hsel_lt hsel_len hsplitk
  rw [decryptWithThreshold, hcombk]
  show Except.ok ((List.range enc.length).map
    (fun i => Nat.xor (enc.getD i 0) (encryptionKey.getD (i % 32) 0))) = Except.ok secret
  have hfinal : (List.range enc.length).map
      (fun i => Nat.xor (enc.getD i 0) (encryptionKey.getD (i % 32) 0)) = secret := by
    apply List.ext_getElem
    · simp [hlen1]
    · intro i h1 h2
      simp only [List.getElem_map, List.getElem_range]
      rw [hpt i (by simpa [hlen1] using h2)]
      show (secret.getD i 0 ^^^ encryptionKey.getD (i % 32) 0)
          ^^^ encryptionKey.getD (i % 32) 0 = secret[i]
      rw [Nat.xor_cancel_right, List.getD_eq_getElem _ _ h2]
  rw [hfinal]

/-- C2 as frozen is false when the random key's big-endian value reaches
`PRIME`: with the key bytes encoding `PRIME` itself, decrypting the 1-byte
ciphertext with both of the 2-of-2 key shares does not return the original
secret. -/
theorem C2_counterexample :
    ((createThresholdEncryption (bigIntToBytes PRIME) (fun _ => []) [0] 2 2).toOption.map
      (fun p => decryptWithThreshold p.1 p.2)).isSome = true ∧
    (createThresholdEncryption (bigIntToBytes PRIME) (fun _ => []) [0] 2 2).toOption.map
      (fun p => decryptWithThreshold p.1 p.2) ≠ some (Except.ok [0]) :=
  ⟨by decide, by decide⟩

/-- Checks the C2 cipher theorem on a 2-byte secret with a 2-of-3 split,
decrypting from the non-prefix position set 2,0. -/
theorem C2_threshold_cipher_witness :
    ((List.replicate 32 1 : List ℕ).length = 32 ∧
      bytesToBigInt (List.replicate 32 1) < PRIME ∧ ([2, 0] : List ℕ).Nodup) ∧
    decryptWithThreshold
        ((createThresholdEncryption (List.replicate 32 1) (fun _ => [9]) [5, 200] 2 3
          ).toOption.getD ([], [])).1
        (([2, 0] : List ℕ).map fun k =>
          ((createThresholdEncryption (List.replicate 32 1) (fun _ => [9]) [5, 200] 2 3
            ).toOption.getD ([], [])).2.getD k { index := 0, value := [] })
      = Except.ok [5, 200] :=
  ⟨⟨by decide, by decide, by decide⟩,
   (C2_threshold_cipher (List.replicate 32 1) (fun _ => [9]) [5, 200] 2 3 [2, 0]
      ((createThresholdEncryption (List.replicate 32 1) (fun _ => [9]) [5, 200] 2 3
        ).toOption.getD ([], [])).1
      ((createThresholdEncryption (List.replicate 32 1) (fun _ => [9]) [5, 200] 2 3
        ).toOption.getD ([], [])).2
      (by decide) (by decide) (by decide) (by decide) (by decide) (by decide)
      (by decide) (by decide) (by decide) (by decide)).2.2⟩
